import Mathlib

/-!
Verification of the derived-metrics layer of the iron tracker workout log.

Numbers that the program stores as Python floats are modelled as rationals;
calendar dates are modelled as integer day ordinals.  The flat `logs` table
is modelled as a list of rows in insertion order, with the autoincrement
primary key made explicit.
-/

set_option linter.unusedVariables false

namespace IronTracker

/-- One row of the `logs` table: the autoincrement primary key plus the
nine user/derived columns of the schema in `init_db`. -/
structure Row where
  id : Nat
  date : Int
  exercise : String
  muscle_group : String
  weight : Rat
  reps : Nat
  sets : Nat
  sleep_hours : Rat
  notes : String
  estimated_1rm : Rat
  volume : Rat
  deriving Repr, DecidableEq

/-- Embeds `calculate_1rm`: `weight` when `reps == 1`, else
`weight * (1 + reps / 30)`. -/
def calculate_1rm (weight : Rat) (reps : Nat) : Rat :=
  if reps = 1 then weight else weight * (1 + (reps : Rat) / 30)

/-- The fixed plate denomination list of `plate_calculator`, descending. -/
def plates : List Rat := [25, 20, 15, 10, 5, 5/2, 5/4]

/-- The loop body of `plate_calculator`: for each plate `p` in order,
`count = int(side_weight // p)`; when positive, record `(p, count)` and
subtract `count * p` from the running side weight.  Returns the result
list (the dict in insertion order) together with the final side weight. -/
def plateLoopAux : List Rat → Rat → List (Rat × Nat) × Rat
  | [], w => ([], w)
  | p :: ps, w =>
    let count := (Int.floor (w / p)).toNat
    if 0 < count then
      let rest := plateLoopAux ps (w - count * p)
      ((p, count) :: rest.1, rest.2)
    else plateLoopAux ps w

/-- Embeds `plate_calculator`: empty mapping when `target_weight <= bar_weight`,
otherwise the greedy per-plate loop on the side weight `(target - bar) / 2`. -/
def plate_calculator (target_weight bar_weight : Rat) : List (Rat × Nat) :=
  if target_weight ≤ bar_weight then []
  else (plateLoopAux plates ((target_weight - bar_weight) / 2)).1

/-- The three recovery buckets of `get_muscle_status`. -/
inductive MStatus where
  | recovering
  | prime
  | cold
  deriving Repr, DecidableEq

/-- Embeds the inner `get_color` of `get_muscle_status`: `days <= 1` is
recovering, `days <= 4` is prime, anything larger is cold. -/
def get_color (days : Int) : MStatus :=
  if days ≤ 1 then .recovering else if days ≤ 4 then .prime else .cold

/-- Maximum of a list of integers, `none` on the empty list
(the shape of a SQL `MAX` aggregate). -/
def listMax : List Int → Option Int
  | [] => none
  | x :: xs =>
    match listMax xs with
    | none => some x
    | some m => some (max x m)

/-- The distinct muscle groups appearing in the table, the grouping keys of
`df.groupby` in `get_muscle_status`. -/
def muscleGroups (df : List Row) : List String :=
  (df.map Row.muscle_group).dedup

/-- The most recent date logged for muscle group `g`. -/
def lastDate (df : List Row) (g : String) : Option Int :=
  listMax ((df.filter (fun r => r.muscle_group = g)).map Row.date)

/-- One output row of `get_muscle_status` per muscle group, before sorting:
group name, days since the most recent entry, and its colour bucket. -/
def statusRows (df : List Row) (today : Int) : List (String × Int × MStatus) :=
  (muscleGroups df).filterMap (fun g =>
    (lastDate df g).map (fun d => (g, today - d, get_color (today - d))))

/-- Comparison on status rows by the days-since component, the key of
`sort_values` in `get_muscle_status`. -/
def statusLe (a b : String × Int × MStatus) : Prop := a.2.1 ≤ b.2.1

instance : DecidableRel statusLe := fun a b => inferInstanceAs (Decidable (_ ≤ _))

instance : IsTotal (String × Int × MStatus) statusLe := ⟨fun a b => Int.le_total a.2.1 b.2.1⟩

instance : IsTrans (String × Int × MStatus) statusLe := ⟨fun _ _ _ => Int.le_trans⟩

/-- Embeds `get_muscle_status`: empty result on an empty table, else the
per-group recency rows sorted ascending by days since last entry. -/
def get_muscle_status (df : List Row) (today : Int) : List (String × Int × MStatus) :=
  if df.isEmpty then []
  else List.insertionSort statusLe (statusRows df today)

/-- The fixed push-exercise membership list of the push/pull classifier. -/
def push_exercises : List String :=
  ["Squat", "Leg Press", "Bench Press", "Incline Bench",
   "Dips", "Overhead Press", "Lateral Raise", "Tricep Extension"]

/-- Embeds the inner `categorize`: an exercise is Push exactly when it is in
the fixed membership list, else Pull. -/
def categorize (ex_name : String) : String :=
  if ex_name ∈ push_exercises then "Push" else "Pull"

/-- Total volume over rows whose exercise categorizes as Push. -/
def pushVol (df : List Row) : Rat :=
  ((df.filter (fun r => categorize r.exercise = "Push")).map Row.volume).sum

/-- Total volume over rows whose exercise categorizes as Pull. -/
def pullVol (df : List Row) : Rat :=
  ((df.filter (fun r => categorize r.exercise = "Pull")).map Row.volume).sum

/-- The three qualitative push/pull balance messages. -/
inductive Balance where
  | pushDominant
  | pullDominant
  | balanced
  deriving Repr, DecidableEq

/-- Embeds the push/pull balance block of the analytics tab: when
`pull_vol > 0` the quotient of push volume by pull volume is classified
(`> 1.5` push dominant, `< 0.75` pull dominant, else balanced); otherwise
the whole branch, the division included, is skipped. -/
def balanceMsg (df : List Row) : Option Balance :=
  if 0 < pullVol df then
    some (if pushVol df / pullVol df > 3/2 then .pushDominant
          else if pushVol df / pullVol df < 3/4 then .pullDominant
          else .balanced)
  else none

/-- The rows of the last-30-days window of `create_pdf_report`:
`date >= today - 30`. -/
def recentDf (df : List Row) (today : Int) : List Row :=
  df.filter (fun r => today - 30 ≤ r.date)

/-- The rows of the prior window of `create_pdf_report`:
`today - 60 <= date < today - 30`. -/
def oldDf (df : List Row) (today : Int) : List Row :=
  df.filter (fun r => today - 60 ≤ r.date ∧ r.date < today - 30)

/-- Summed volume of the recent window. -/
def recentVol (df : List Row) (today : Int) : Rat :=
  ((recentDf df today).map Row.volume).sum

/-- Summed volume of the prior window. -/
def oldVol (df : List Row) (today : Int) : Rat :=
  ((oldDf df today).map Row.volume).sum

/-- Embeds `vol_pct` of `create_pdf_report`: the percentage volume change,
guarded so that a non-positive prior volume yields 100 without dividing. -/
def volPct (df : List Row) (today : Int) : Rat :=
  if 0 < oldVol df today
  then (recentVol df today - oldVol df today) / oldVol df today * 100
  else 100

/-- Embeds `recent_workouts`: the number of distinct session dates in the
recent window. -/
def recentWorkouts (df : List Row) (today : Int) : Nat :=
  (((recentDf df today).map Row.date).dedup).length

/-- The three verdict tiers of the report. -/
inductive Verdict where
  | outstanding
  | acceptable
  | unsatisfactory
  deriving Repr, DecidableEq

/-- Embeds the verdict chain of `create_pdf_report`: best tier when
`vol_pct > 10 and recent_workouts >= 12`, else middle tier when
`vol_pct > 0`, else lowest tier. -/
def reportVerdict (df : List Row) (today : Int) : Verdict :=
  if volPct df today > 10 ∧ 12 ≤ recentWorkouts df today then .outstanding
  else if 0 < volPct df today then .acceptable
  else .unsatisfactory

/-- Modelled from the spec: the tier selection described in the period
comparison section, as a function of the percentage change and the recent
session count alone. -/
def verdictSpec (pct : Rat) (sessions : Nat) : Verdict :=
  if pct > 10 ∧ 12 ≤ sessions then .outstanding
  else if 0 < pct then .acceptable
  else .unsatisfactory

/-- Embeds `SELECT MAX(id) FROM logs`: `none` on an empty table. -/
def maxId : List Row → Option Nat
  | [] => none
  | r :: rs =>
    match maxId rs with
    | none => some r.id
    | some m => some (max r.id m)

/-- The autoincrement key for the next insert: one past the current maximum. -/
def nextId (s : List Row) : Nat :=
  match maxId s with
  | none => 1
  | some m => m + 1

/-- The static exercise to muscle-group catalog `ex_map` of the log form. -/
def ex_map : List (String × String) :=
  [("Squat", "Legs"), ("Deadlift", "Back"), ("Leg Press", "Legs"),
   ("Bench Press", "Chest"), ("Incline Bench", "Chest"), ("Dips", "Chest"),
   ("Overhead Press", "Shoulders"), ("Lateral Raise", "Shoulders"),
   ("Barbell Row", "Back"), ("Pull Up", "Back"), ("Lat Pulldown", "Back"),
   ("Bicep Curl", "Arms"), ("Tricep Extension", "Arms")]

/-- Embeds the submit branch of the log form: derive `estimated_1rm` and
`volume` from the submitted weight, reps and sets, look the muscle group up
in the catalog, and append the new row to the table.  `none` when the
exercise is not in the catalog (the form only offers catalog keys). -/
def submitEntry (s : List Row) (d : Int) (ex : String) (weight : Rat)
    (reps sets : Nat) (sleep : Rat) (notes : String) : Option (List Row) :=
  match ex_map.lookup ex with
  | none => none
  | some muscle =>
    some (s ++ [{ id := nextId s, date := d, exercise := ex,
                  muscle_group := muscle, weight := weight, reps := reps,
                  sets := sets, sleep_hours := sleep, notes := notes,
                  estimated_1rm := calculate_1rm weight reps,
                  volume := weight * reps * sets }])

/-- Embeds the Delete Last Log Entry block: read `MAX(id)`; when the result
is truthy (not NULL and not zero) delete the rows carrying that id, else
report that the database is empty and delete nothing. -/
def deleteLast (s : List Row) : Except String (List Row) :=
  match maxId s with
  | none => .error "Database is empty."
  | some m =>
    if m = 0 then .error "Database is empty."
    else .ok (s.filter (fun r => r.id ≠ m))

/-- A single-row table whose entry is two days old. -/
def dfTwoDays : List Row :=
  [{ id := 1, date := 0, exercise := "Squat", muscle_group := "Legs",
     weight := 100, reps := 5, sets := 3, sleep_hours := 8, notes := "",
     estimated_1rm := 100, volume := 1500 }]

/-- The store invariant the app maintains: primary keys are strictly
increasing in insertion order and at least 1 (SQLite autoincrement). -/
def WFStore (s : List Row) : Prop :=
  List.Pairwise (fun a b => a.id < b.id) s ∧ ∀ r ∈ s, 1 ≤ r.id

/-- A two-row table in insertion order with autoincrement ids. -/
def dfStore : List Row :=
  [{ id := 1, date := 0, exercise := "Squat", muscle_group := "Legs",
     weight := 100, reps := 5, sets := 3, sleep_hours := 8, notes := "",
     estimated_1rm := 100, volume := 1500 },
   { id := 2, date := 1, exercise := "Bench Press", muscle_group := "Chest",
     weight := 80, reps := 5, sets := 3, sleep_hours := 7, notes := "",
     estimated_1rm := 90, volume := 1200 }]

/-- Modelled from the spec: greedy descent over the denomination list,
repeatedly subtracting the largest fitting plate.  Because the list is kept
in descending order, the first plate that fits is the largest one that fits.
The first argument is structural recursion fuel; `totalCount` below is an
exact bound on the number of subtractions. -/
def greedyDescent : Nat → List Rat → Rat → List Rat
  | 0, _, _ => []
  | fuel+1, ps, w =>
    match ps.find? (fun p => decide (p ≤ w)) with
    | none => []
    | some p => p :: greedyDescent fuel ps (w - p)

/-- The number of plates the per-plate floor loop emits in total. -/
def totalCount : List Rat → Rat → Nat
  | [], _ => 0
  | p :: ps, w =>
    let k := (Int.floor (w / p)).toNat
    k + totalCount ps (w - k * p)

/-- Count carried by a denomination in an association-list plate mapping. -/
def countA : List (Rat × Nat) → Rat → Nat
  | [], _ => 0
  | e :: t, q => (if e.1 = q then e.2 else 0) + countA t q

/-- Total weight on the bar for a per-side plate mapping: the bar plus two
sides. -/
def loadedWeight (bar : Rat) (res : List (Rat × Nat)) : Rat :=
  bar + 2 * (res.map (fun e => e.1 * (e.2 : Rat))).sum

/-! ### The flat-file export format

Modelled from the spec: the Export Data block hands the raw table to an
external collaborator that writes comma-separated values, and the spec
claims re-reading that file reproduces the entries.  The writer below
follows the standard convention the collaborator uses: one header line,
one line per row, fields joined by commas, a field containing a comma,
quote or newline wrapped in double quotes with inner quotes doubled.
Numbers are written in decimal when the denominator divides a power of
ten and as a fraction otherwise.  The reader inverts that format.
-/

/-- The double-quote character. -/
def qc : Char := Char.ofNat 34

/-- The newline character, the record separator. -/
def nl : Char := Char.ofNat 10

/-- The comma, the field separator. -/
def comma : Char := Char.ofNat 44

/-- The minus sign. -/
def minus : Char := Char.ofNat 45

/-- The decimal point. -/
def dot : Char := Char.ofNat 46

/-- The fraction slash. -/
def slash : Char := Char.ofNat 47

/-- The decimal digit for a value below ten. -/
def digitChar (d : Nat) : Char := Char.ofNat (48 + d)

/-- The zero digit. -/
def zeroChar : Char := digitChar 0

/-- Decides whether a character is a decimal digit. -/
def isDig (c : Char) : Bool := decide (48 ≤ c.toNat) && decide (c.toNat ≤ 57)

/-- A field needs quoting when it contains a separator or a quote. -/
def needsQuote (s : List Char) : Bool :=
  s.any (fun c => decide (c = comma) || decide (c = qc) || decide (c = nl))

/-- Double every inner quote of a quoted field body. -/
def escQuotes : List Char → List Char
  | [] => []
  | c :: cs => if c = qc then qc :: qc :: escQuotes cs else c :: escQuotes cs

/-- Serialize one field, quoting it when it contains special characters. -/
def encodeField (s : List Char) : List Char :=
  if needsQuote s then qc :: (escQuotes s ++ [qc]) else s

/-- Serialize one record: fields joined by commas. -/
def encodeRecord : List (List Char) → List Char
  | [] => []
  | [f] => encodeField f
  | f :: fs => encodeField f ++ comma :: encodeRecord fs

/-- Serialize a document: every record terminated by a newline. -/
def encodeDoc : List (List (List Char)) → List Char
  | [] => []
  | r :: rs => (encodeRecord r ++ [nl]) ++ encodeDoc rs

/-- The decimal digits of a natural number, most significant first. -/
def natChars (n : Nat) : List Char :=
  if h : n < 10 then [digitChar n]
  else natChars (n / 10) ++ [digitChar (n % 10)]
  termination_by n
  decreasing_by exact Nat.div_lt_self (by omega) (by omega)

/-- The decimal digits of an integer with an optional leading minus. -/
def intChars (z : Int) : List Char :=
  if z < 0 then minus :: natChars z.natAbs else natChars z.toNat

/-- `v` padded with leading zeros to at least `k` digits. -/
def padDigits (k v : Nat) : List Char :=
  List.replicate (k - (natChars v).length) zeroChar ++ natChars v

/-- The scaled integer `m` written with `k` digits after the point. -/
def decimalChars (m k : Nat) : List Char :=
  natChars (m / 10 ^ k) ++ dot :: padDigits k (m % 10 ^ k)

/-- A rational as the flat file shows it: an integer when the denominator
is one, a finite decimal when the denominator divides a power of ten, and
a fraction otherwise. -/
def ratChars (q : Rat) : List Char :=
  if q.den = 1 then intChars q.num
  else
    match (List.range (q.den + 1)).find? (fun k => decide (10 ^ k % q.den = 0)) with
    | some k =>
      (if q.num < 0 then [minus] else []) ++
        decimalChars (q.num.natAbs * (10 ^ k / q.den)) k
    | none => intChars q.num ++ slash :: natChars q.den

/-- One exported row: the eleven columns of the table in schema order. -/
def encodeRow (r : Row) : List (List Char) :=
  [natChars r.id, intChars r.date, r.exercise.data, r.muscle_group.data,
   ratChars r.weight, natChars r.reps, natChars r.sets,
   ratChars r.sleep_hours, r.notes.data, ratChars r.estimated_1rm,
   ratChars r.volume]

/-- The header line of the export: the column names. -/
def headerRecord : List (List Char) :=
  [String.data "id", String.data "date", String.data "exercise",
   String.data "muscle_group", String.data "weight", String.data "reps",
   String.data "sets", String.data "sleep_hours", String.data "notes",
   String.data "estimated_1rm", String.data "volume"]

/-- The full export of the raw table to the flat-file format. -/
def exportCsv (df : List Row) : List Char :=
  encodeDoc (headerRecord :: df.map encodeRow)

/-- The value of a digit string, most significant first. -/
def parseNatRaw (cs : List Char) : Nat :=
  cs.foldl (fun acc c => acc * 10 + (c.toNat - 48)) 0

/-- Split a string into its leading digit run and the remainder. -/
def spanDigits : List Char → List Char × List Char
  | [] => ([], [])
  | c :: cs =>
    if isDig c then
      let r := spanDigits cs
      (c :: r.1, r.2)
    else ([], c :: cs)

/-- Parse a non-empty all-digit string. -/
def parseNat (cs : List Char) : Option Nat :=
  if cs ≠ [] ∧ cs.all isDig then some (parseNatRaw cs) else none

/-- Parse an optionally minus-signed digit string. -/
def parseInt (cs : List Char) : Option Int :=
  match cs with
  | [] => none
  | c :: rest =>
    if c = minus then (parseNat rest).map (fun v => -(Int.ofNat v))
    else (parseNat cs).map (fun v => Int.ofNat v)

/-- Parse an unsigned number: digits, optionally followed by a point and
digits or a slash and digits. -/
def parseRatPos (cs : List Char) : Option Rat :=
  let sp := spanDigits cs
  if sp.1 = [] then none
  else
    match sp.2 with
    | [] => some ((parseNatRaw sp.1 : Nat) : Rat)
    | c :: rest2 =>
      if c = dot then
        let fp := spanDigits rest2
        if fp.1 = [] then none
        else if fp.2 = [] then
          some (((parseNatRaw sp.1 : Nat) : Rat) +
            ((parseNatRaw fp.1 : Nat) : Rat) / 10 ^ fp.1.length)
        else none
      else if c = slash then
        let dn := spanDigits rest2
        if dn.1 = [] then none
        else if dn.2 = [] then
          some (((parseNatRaw sp.1 : Nat) : Rat) / ((parseNatRaw dn.1 : Nat) : Rat))
        else none
      else none

/-- Parse an optionally minus-signed number. -/
def parseRat (cs : List Char) : Option Rat :=
  match cs with
  | [] => none
  | c :: rest =>
    if c = minus then (parseRatPos rest).map (fun q => -q)
    else parseRatPos cs

/-- Consume an unquoted field up to the next separator.  Returns the field,
the remaining input, and whether the field ended its record. -/
def parseUnquoted : List Char → List Char × List Char × Bool
  | [] => ([], [], true)
  | c :: cs =>
    if c = comma then ([], cs, false)
    else if c = nl then ([], cs, true)
    else
      let r := parseUnquoted cs
      (c :: r.1, r.2.1, r.2.2)

mutual

/-- Consume the body of a quoted field: a doubled quote is literal, a
single quote closes the field and the following separator is consumed. -/
def parseQuoted : List Char → List Char × List Char × Bool
  | [] => ([], [], true)
  | c :: cs =>
    if c = qc then parseAfterQuote cs
    else
      let r := parseQuoted cs
      (c :: r.1, r.2.1, r.2.2)

/-- Continue after a quote inside a quoted field: another quote is a
literal quote, a separator closes the field. -/
def parseAfterQuote : List Char → List Char × List Char × Bool
  | [] => ([], [], true)
  | c2 :: cs2 =>
    if c2 = qc then
      let r := parseQuoted cs2
      (qc :: r.1, r.2.1, r.2.2)
    else if c2 = comma then ([], cs2, false)
    else if c2 = nl then ([], cs2, true)
    else
      let r := parseUnquoted (c2 :: cs2)
      (r.1, r.2.1, r.2.2)

end

/-- Consume one field, quoted or not. -/
def parseField : List Char → List Char × List Char × Bool
  | [] => ([], [], true)
  | c :: cs => if c = qc then parseQuoted cs else parseUnquoted (c :: cs)

/-- Consume the fields of one record.  The fuel bounds the field count. -/
def parseRecordAux : Nat → List Char → List (List Char) × List Char
  | 0, input => ([], input)
  | fuel + 1, input =>
    let pf := parseField input
    if pf.2.2 then ([pf.1], pf.2.1)
    else
      let pr := parseRecordAux fuel pf.2.1
      (pf.1 :: pr.1, pr.2)

/-- Split a document into records.  The fuel bounds the record count. -/
def parseDoc : Nat → List Char → List (List (List Char))
  | 0, _ => []
  | fuel + 1, input =>
    if input.isEmpty then []
    else
      let pr := parseRecordAux (input.length + 1) input
      pr.1 :: parseDoc fuel pr.2

/-- Rebuild one row from its eleven parsed fields. -/
def decodeRow (fs : List (List Char)) : Option Row :=
  match fs with
  | [idf, datef, exf, mgf, wf, repsf, setsf, slf, notesf, e1f, volf] =>
    (parseNat idf).bind fun idv =>
    (parseInt datef).bind fun datev =>
    (parseRat wf).bind fun wv =>
    (parseNat repsf).bind fun repsv =>
    (parseNat setsf).bind fun setsv =>
    (parseRat slf).bind fun slv =>
    (parseRat e1f).bind fun e1v =>
    (parseRat volf).map fun volv =>
      { id := idv, date := datev, exercise := String.mk exf,
        muscle_group := String.mk mgf, weight := wv, reps := repsv,
        sets := setsv, sleep_hours := slv, notes := String.mk notesf,
        estimated_1rm := e1v, volume := volv }
  | _ => none

/-- Rebuild all rows, failing when any record is malformed. -/
def decodeRows : List (List (List Char)) → Option (List Row)
  | [] => some []
  | r :: rs =>
    (decodeRow r).bind fun x =>
    (decodeRows rs).map fun xs => x :: xs

/-- Re-read an exported file: split into records, check the header, and
rebuild the rows. -/
def importCsv (input : List Char) : Option (List Row) :=
  match parseDoc (input.length + 1) input with
  | [] => none
  | header :: rows =>
    if header = headerRecord then decodeRows rows else none

end IronTracker

namespace IronTracker

/-! ### Claim theorems -/

/-- Claim C4: `calculate_1rm` returns exactly the weight when reps is 1 and
`w * (1 + r / 30)` for every other rep count; in particular the reps-1
estimate equals the weight for all weights. -/
theorem calculate_1rm_cases (w : Rat) (r : Nat) :
    (r = 1 → calculate_1rm w r = w) ∧
    (r ≠ 1 → calculate_1rm w r = w * (1 + (r : Rat) / 30)) := by
  constructor
  · intro h; simp [calculate_1rm, h]
  · intro h; simp [calculate_1rm, h]

/-- Witness for C4 at weight 60: both branches at concrete rep counts. -/
theorem calculate_1rm_cases_witness :
    calculate_1rm 60 1 = 60 ∧ calculate_1rm 60 5 = 60 * (1 + (5 : Rat) / 30) :=
  ⟨(calculate_1rm_cases 60 1).1 rfl, (calculate_1rm_cases 60 5).2 (by decide)⟩

/-- Claim C5: for fixed positive weight the one-rep-max estimate is strictly
increasing in the rep count, the special-cased step from 1 to 2 included. -/
theorem calculate_1rm_strictMono (w : Rat) (hw : 0 < w) (r : Nat) (hr : 1 ≤ r) :
    calculate_1rm w r < calculate_1rm w (r + 1) := by
  rcases eq_or_lt_of_le hr with h1 | h2
  · subst h1
    show calculate_1rm w 1 < calculate_1rm w 2
    rw [calculate_1rm, if_pos rfl, calculate_1rm, if_neg (by norm_num)]
    push_cast
    nlinarith
  · have hne : r ≠ 1 := by omega
    have hne2 : r + 1 ≠ 1 := by omega
    rw [calculate_1rm, if_neg hne, calculate_1rm, if_neg hne2]
    have hlt : (r : Rat) / 30 < ((r : Rat) + 1) / 30 := by linarith
    push_cast
    nlinarith [hlt]

/-- Witness for C5 across the special-cased step at weight 60. -/
theorem calculate_1rm_strictMono_witness :
    calculate_1rm 60 1 < calculate_1rm 60 2 :=
  calculate_1rm_strictMono 60 (by norm_num) 1 le_rfl

/-- Claim C6: with zero total Pull volume the imbalance branch is skipped
entirely, no quotient formed; with positive Pull volume the push-to-pull
quotient is classified as push dominant above 1.5, pull dominant below
0.75, and balanced otherwise. -/
theorem balanceMsg_spec (df : List Row) :
    (pullVol df = 0 → balanceMsg df = none) ∧
    (0 < pullVol df →
      balanceMsg df =
        some (if pushVol df / pullVol df > 3/2 then Balance.pushDominant
              else if pushVol df / pullVol df < 3/4 then Balance.pullDominant
              else Balance.balanced)) := by
  constructor
  · intro h
    rw [balanceMsg, if_neg]
    rw [h]
    exact lt_irrefl 0
  · intro h
    rw [balanceMsg, if_pos h]

/-- Witness for C6: the empty table has zero pull volume and no message. -/
theorem balanceMsg_spec_witness : balanceMsg [] = none :=
  (balanceMsg_spec []).1 rfl

/-! ### Greedy descent agrees with the per-plate floor loop -/

theorem greedyDescent_nil (fuel : Nat) (w : Rat) : greedyDescent fuel [] w = [] := by
  cases fuel <;> rfl

theorem greedyDescent_head_skip (p : Rat) (ps : List Rat)
    (hpos : ∀ q ∈ ps, 0 < q) :
    ∀ (fuel : Nat) (w : Rat), w < p →
      greedyDescent fuel (p :: ps) w = greedyDescent fuel ps w := by
  intro fuel
  induction fuel with
  | zero => intro w hw; rfl
  | succ f ih =>
    intro w hw
    have hnp : decide (p ≤ w) = false := by simp; linarith
    have hfind : List.find? (fun x : Rat => decide (x ≤ w)) (p :: ps)
        = List.find? (fun x : Rat => decide (x ≤ w)) ps := by
      simp [List.find?_cons, hnp]
    rw [greedyDescent, greedyDescent, hfind]
    cases hfind : ps.find? (fun x => decide (x ≤ w)) with
    | none => rfl
    | some q =>
      have hq : q ∈ ps := List.mem_of_find?_eq_some hfind
      have hq0 : 0 < q := hpos q hq
      show q :: greedyDescent f (p :: ps) (w - q) = q :: greedyDescent f ps (w - q)
      rw [ih (w - q) (by linarith)]

theorem greedyDescent_peel (p : Rat) (ps : List Rat) (hp : 0 < p) :
    ∀ (k fuel : Nat) (w : Rat), 0 ≤ w → (Int.floor (w / p)).toNat = k → k ≤ fuel →
      greedyDescent fuel (p :: ps) w
        = List.replicate k p ++ greedyDescent (fuel - k) (p :: ps) (w - (k : Rat) * p) := by
  intro k
  induction k with
  | zero => intro fuel w hw hk hf; simp
  | succ k ih =>
    intro fuel w hw hk hf
    have hfl : 1 ≤ Int.floor (w / p) := by omega
    have hpw : p ≤ w := by
      have h1 : (1 : Rat) ≤ w / p := by
        have := Int.le_floor.mp hfl
        push_cast at this
        exact this
      rw [le_div_iff₀ hp] at h1
      linarith
    obtain ⟨f, rfl⟩ : ∃ f, fuel = f + 1 := ⟨fuel - 1, by omega⟩
    have hdp : decide (p ≤ w) = true := by simp [hpw]
    have hfind : List.find? (fun x : Rat => decide (x ≤ w)) (p :: ps) = some p := by
      simp [List.find?_cons, hdp]
    rw [greedyDescent, hfind]
    show p :: greedyDescent f (p :: ps) (w - p)
        = List.replicate (k + 1) p ++ greedyDescent (f + 1 - (k + 1)) (p :: ps) (w - ((k + 1 : Nat) : Rat) * p)
    have hfl2 : (Int.floor ((w - p) / p)).toNat = k := by
      have hdiv : (w - p) / p = w / p - ((1 : Int) : Rat) := by
        field_simp
      rw [hdiv, Int.floor_sub_int]
      omega
    have hw2 : 0 ≤ w - p := by linarith
    rw [ih f (w - p) hw2 hfl2 (by omega)]
    have harith : w - p - (k : Rat) * p = w - ((k : Nat) + 1 : Rat) * p := by
      push_cast
      ring
    have hfuel : f - k = f + 1 - (k + 1) := by omega
    rw [harith, hfuel, List.replicate_succ]
    simp

/-- Casting the truncated floor of a nonnegative quotient back to the
rationals recovers the floor itself. -/
theorem floor_toNat_cast (w p : Rat) (hw : 0 ≤ w) (hp : 0 < p) :
    (((Int.floor (w / p)).toNat : Nat) : Rat) = ((Int.floor (w / p) : Int) : Rat) := by
  have h : 0 ≤ Int.floor (w / p) := Int.floor_nonneg.mpr (by positivity)
  exact_mod_cast congrArg (Int.cast : Int → Rat) (Int.toNat_of_nonneg h)

theorem floor_count_le (w p : Rat) (hw : 0 ≤ w) (hp : 0 < p) :
    (((Int.floor (w / p)).toNat : Nat) : Rat) * p ≤ w := by
  rw [floor_toNat_cast w p hw hp]
  exact (le_div_iff₀ hp).mp (Int.floor_le _)

theorem floor_count_rem_lt (w p : Rat) (hw : 0 ≤ w) (hp : 0 < p) :
    w - (((Int.floor (w / p)).toNat : Nat) : Rat) * p < p := by
  rw [floor_toNat_cast w p hw hp]
  have hlt : w / p < ((Int.floor (w / p) : Rat)) + 1 := Int.lt_floor_add_one _
  have := (div_lt_iff₀ hp).mp hlt
  nlinarith

theorem plateLoop_eq_greedy :
    ∀ (ps : List Rat), (∀ p ∈ ps, 0 < p) → ∀ (w : Rat), 0 ≤ w →
      ∀ fuel, totalCount ps w ≤ fuel →
      ∀ q, countA (plateLoopAux ps w).1 q = (greedyDescent fuel ps w).count q := by
  intro ps
  induction ps with
  | nil =>
    intro _ w hw fuel hf q
    simp [plateLoopAux, countA, greedyDescent_nil]
  | cons p ps ih =>
    intro hpos w hw fuel hf q
    have hp : 0 < p := hpos p (by simp)
    have hpos2 : ∀ x ∈ ps, 0 < x := fun x hx => hpos x (by simp [hx])
    have hkp := floor_count_le w p hw hp
    have hrem := floor_count_rem_lt w p hw hp
    have hr0 : 0 ≤ w - (((Int.floor (w / p)).toNat : Nat) : Rat) * p := by linarith
    simp only [totalCount] at hf
    rw [greedyDescent_peel p ps hp ((Int.floor (w / p)).toNat) fuel w hw rfl (by omega)]
    rw [greedyDescent_head_skip p ps hpos2 _ _ hrem]
    rw [List.count_append, List.count_replicate]
    simp only [plateLoopAux]
    by_cases hk0 : 0 < (Int.floor (w / p)).toNat
    · rw [if_pos hk0]
      simp only [countA]
      rw [ih hpos2 _ hr0 (fuel - (Int.floor (w / p)).toNat) (by omega) q]
      by_cases hpq : p = q
      · simp [hpq]
      · have : ¬ (p == q) = true := by simpa using hpq
        simp [hpq, this]
    · rw [if_neg hk0]
      have hkz : (Int.floor (w / p)).toNat = 0 := by omega
      rw [hkz] at hf ⊢
      simp only [Nat.cast_zero, zero_mul, sub_zero] at hf ⊢
      rw [ih hpos2 w hw (fuel - 0) (by omega) q]
      by_cases hpq : p = q
      · simp [hpq]
      · have : ¬ (p == q) = true := by simpa using hpq
        simp [hpq, this]

/-- Every denomination in the fixed plate list is positive. -/
theorem plates_pos : ∀ p ∈ plates, 0 < p := by
  intro p hp
  simp [plates] at hp
  rcases hp with rfl | rfl | rfl | rfl | rfl | rfl | rfl <;> norm_num

/-- Every denomination in the fixed plate list is an integer multiple of the
smallest plate, five fourths. -/
theorem plates_mult : ∀ p ∈ plates, ∃ z : Int, p = 5/4 * (z : Rat) := by
  intro p hp
  simp [plates] at hp
  rcases hp with rfl | rfl | rfl | rfl | rfl | rfl | rfl
  · exact ⟨20, by norm_num⟩
  · exact ⟨16, by norm_num⟩
  · exact ⟨12, by norm_num⟩
  · exact ⟨8, by norm_num⟩
  · exact ⟨4, by norm_num⟩
  · exact ⟨2, by norm_num⟩
  · exact ⟨1, by norm_num⟩

/-- Claim C2: the plate calculator returns the empty mapping whenever the
target does not exceed the bar, and otherwise the mapping produced by the
greedy descent that repeatedly subtracts the largest fitting plate from the
per-side weight over the fixed descending denomination list; in particular
the 100 over a 20 bar and 20 over a 20 bar cases. -/
theorem plate_calculator_greedy :
    (∀ t b : Rat, t ≤ b → plate_calculator t b = []) ∧
    (∀ t b : Rat, b < t → ∀ q : Rat,
      countA (plate_calculator t b) q
        = (greedyDescent (totalCount plates ((t - b) / 2)) plates ((t - b) / 2)).count q) ∧
    plate_calculator 100 20 = [(25, 1), (15, 1)] ∧
    plate_calculator 20 20 = [] := by
  refine ⟨?_, ?_, ?_, rfl⟩
  · intro t b h
    rw [plate_calculator, if_pos h]
  · intro t b h q
    rw [plate_calculator, if_neg (not_le.mpr h)]
    have hw : 0 ≤ (t - b) / 2 := by linarith
    exact plateLoop_eq_greedy plates plates_pos ((t - b) / 2) hw _ le_rfl q
  · rw [plate_calculator, if_neg (by norm_num)]
    norm_num [plates]
    rw [plateLoopAux]; norm_num
    rw [plateLoopAux]; norm_num
    rw [plateLoopAux]; norm_num
    rw [plateLoopAux]; norm_num
    rw [plateLoopAux]; norm_num
    rw [plateLoopAux]; norm_num
    rw [plateLoopAux]; norm_num [plateLoopAux]

/-- Witness for C2 at concrete inputs on both guarded branches. -/
theorem plate_calculator_greedy_witness :
    plate_calculator 15 20 = [] ∧
    countA (plate_calculator 100 20) 25
      = (greedyDescent (totalCount plates ((100 - 20) / 2)) plates ((100 - 20) / 2)).count 25 :=
  ⟨plate_calculator_greedy.1 15 20 (by norm_num),
   plate_calculator_greedy.2.1 100 20 (by norm_num) 25⟩

/-! ### Bounds on the loaded weight -/

theorem plateLoopAux_sum_rem :
    ∀ (ps : List Rat), (∀ p ∈ ps, 0 < p) → ∀ w : Rat, 0 ≤ w →
      ((plateLoopAux ps w).1.map (fun e => e.1 * (e.2 : Rat))).sum
          = w - (plateLoopAux ps w).2
        ∧ 0 ≤ (plateLoopAux ps w).2 := by
  intro ps
  induction ps with
  | nil =>
    intro _ w hw
    simp [plateLoopAux]
    exact hw
  | cons p ps ih =>
    intro hpos w hw
    have hp : 0 < p := hpos p (by simp)
    have hpos2 : ∀ x ∈ ps, 0 < x := fun x hx => hpos x (by simp [hx])
    have hr0 : 0 ≤ w - (((Int.floor (w / p)).toNat : Nat) : Rat) * p := by
      have := floor_count_le w p hw hp
      linarith
    simp only [plateLoopAux]
    by_cases hk : 0 < (Int.floor (w / p)).toNat
    · rw [if_pos hk]
      obtain ⟨hsum, hrem⟩ := ih hpos2 _ hr0
      constructor
      · simp only [List.map_cons, List.sum_cons, hsum]
        ring
      · exact hrem
    · rw [if_neg hk]
      exact ih hpos2 w hw

theorem plateLoopAux_rem_lt_last :
    ∀ (l : List Rat) (q : Rat), 0 < q → ∀ w : Rat, 0 ≤ w →
      (plateLoopAux (l ++ [q]) w).2 < q := by
  intro l
  induction l with
  | nil =>
    intro q hq w hw
    have hrem := floor_count_rem_lt w q hw hq
    simp only [List.nil_append, plateLoopAux]
    by_cases hk : 0 < (Int.floor (w / q)).toNat
    · rw [if_pos hk]
      simpa [plateLoopAux] using hrem
    · rw [if_neg hk]
      have hkz : (Int.floor (w / q)).toNat = 0 := by omega
      rw [hkz] at hrem
      simpa [plateLoopAux] using hrem
  | cons p l ih =>
    intro q hq w hw
    simp only [List.cons_append, plateLoopAux]
    by_cases hk : 0 < (Int.floor (w / p)).toNat
    · rw [if_pos hk]
      by_cases hp : 0 < p
      · have hr0 : 0 ≤ w - (((Int.floor (w / p)).toNat : Nat) : Rat) * p := by
          have := floor_count_le w p hw hp
          linarith
        exact ih q hq _ hr0
      · exfalso
        push_neg at hp
        have hdivle : w / p ≤ 0 ∨ 0 < (Int.floor (w / p)).toNat := Or.inr hk
        rcases lt_or_eq_of_le hp with hneg | hzero
        · have hle : w / p ≤ 0 := div_nonpos_of_nonneg_of_nonpos hw (le_of_lt hneg)
          have hfle : Int.floor (w / p) ≤ Int.floor (0 : Rat) := Int.floor_mono hle
          simp at hfle
          omega
        · rw [hzero] at hk
          simp at hk
    · rw [if_neg hk]
      exact ih q hq w hw

theorem plateLoopAux_rem_mult :
    ∀ (ps : List Rat), (∀ p ∈ ps, ∃ z : Int, p = 5/4 * (z : Rat)) →
      ∀ (w : Rat) (zw : Int), w = 5/4 * (zw : Rat) →
      ∃ z : Int, (plateLoopAux ps w).2 = 5/4 * (z : Rat) := by
  intro ps
  induction ps with
  | nil =>
    intro _ w zw hw
    exact ⟨zw, hw⟩
  | cons p ps ih =>
    intro hmul w zw hw
    obtain ⟨zp, hzp⟩ := hmul p (by simp)
    have hmul2 : ∀ x ∈ ps, ∃ z : Int, x = 5/4 * (z : Rat) :=
      fun x hx => hmul x (by simp [hx])
    simp only [plateLoopAux]
    by_cases hk : 0 < (Int.floor (w / p)).toNat
    · rw [if_pos hk]
      apply ih hmul2 _ (zw - ((Int.floor (w / p)).toNat : Int) * zp)
      rw [hw, hzp]
      push_cast
      ring
    · rw [if_neg hk]
      exact ih hmul2 w zw hw

/-- Claim C10: for every target strictly above the bar, the returned mapping
never overshoots the target, undershoots by strictly less than 2.5 in total,
and hits the target exactly whenever the per-side weight is an integer
multiple of 1.25. -/
theorem plate_calculator_no_overshoot (t b : Rat) (hbt : b < t) :
    loadedWeight b (plate_calculator t b) ≤ t ∧
    t - loadedWeight b (plate_calculator t b) < 5/2 ∧
    (∀ k : Nat, (t - b) / 2 = 5/4 * (k : Rat) →
      loadedWeight b (plate_calculator t b) = t) := by
  have hw : 0 ≤ (t - b) / 2 := by linarith
  rw [plate_calculator, if_neg (not_le.mpr hbt)]
  obtain ⟨hsum, hrem0⟩ := plateLoopAux_sum_rem plates plates_pos ((t - b) / 2) hw
  have hsplit : plates = [25, 20, 15, 10, 5, 5/2] ++ [5/4] := rfl
  have hremlt : (plateLoopAux plates ((t - b) / 2)).2 < 5/4 := by
    rw [hsplit]
    exact plateLoopAux_rem_lt_last [25, 20, 15, 10, 5, 5/2] (5/4) (by norm_num)
      ((t - b) / 2) hw
  refine ⟨?_, ?_, ?_⟩
  · rw [loadedWeight, hsum]
    linarith
  · rw [loadedWeight, hsum]
    linarith
  · intro k hk
    obtain ⟨z, hz⟩ := plateLoopAux_rem_mult plates plates_mult ((t - b) / 2) (k : Int)
      (by rw [hk]; push_cast; ring)
    have hz0 : (0 : Rat) ≤ (z : Rat) := by nlinarith [hrem0, hz]
    have hz1 : (z : Rat) < 1 := by nlinarith [hremlt, hz]
    have hzz : z = 0 := by
      have h0 : (0 : Int) ≤ z := by exact_mod_cast hz0
      have h1 : z < 1 := by exact_mod_cast hz1
      omega
    rw [loadedWeight, hsum, hz, hzz]
    push_cast
    linarith

/-- Witness for C10 at target 100 over a 20 bar, where the side weight 40 is
32 times the smallest plate, so the load is exact. -/
theorem plate_calculator_no_overshoot_witness :
    loadedWeight 20 (plate_calculator 100 20) = 100 :=
  (plate_calculator_no_overshoot 100 20 (by norm_num)).2.2 32 (by norm_num)

end IronTracker

namespace IronTracker

/-! ### Muscle recovery status -/

theorem listMax_cons_isSome (x : Int) (xs : List Int) :
    ∃ m, listMax (x :: xs) = some m := by
  cases h : listMax xs with
  | none => exact ⟨x, by simp [listMax, h]⟩
  | some m => exact ⟨max x m, by simp [listMax, h]⟩

theorem listMax_isSome_of_mem (l : List Int) (x : Int) (hx : x ∈ l) :
    ∃ m, listMax l = some m := by
  cases l with
  | nil => cases hx
  | cons a as => exact listMax_cons_isSome a as

/-- Characterization of membership in the unsorted status rows. -/
theorem mem_statusRows (df : List Row) (today : Int) (x : String × Int × MStatus) :
    x ∈ statusRows df today ↔
      ∃ g ∈ muscleGroups df, ∃ d, lastDate df g = some d ∧
        x = (g, today - d, get_color (today - d)) := by
  simp only [statusRows, List.mem_filterMap, Option.map_eq_some']
  constructor
  · rintro ⟨g, hg, d, hd, rfl⟩
    exact ⟨g, hg, d, hd, rfl⟩
  · rintro ⟨g, hg, d, hd, rfl⟩
    exact ⟨g, hg, d, hd, rfl⟩

/-- Counterexample to C1 as stated: at two days elapsed the muscle group
lands in the prime bucket, not the recovering bucket, because the code uses
the thresholds 1 and 4, not 2 and 5. -/
theorem get_muscle_status_two_days :
    get_muscle_status dfTwoDays 2 = [("Legs", 2, MStatus.prime)] ∧
      MStatus.prime ≠ MStatus.recovering := by
  exact ⟨by decide, by decide⟩

/-- Claim C1 as amended: on a non-empty table every muscle group appears in
the result with its days-since-last-entry, classified with the code
thresholds (one day or less recovering, four days or less prime, otherwise
cold), and the rows are sorted ascending by days elapsed. -/
theorem get_muscle_status_amended (df : List Row) (today : Int) (hne : df ≠ []) :
    List.Sorted statusLe (get_muscle_status df today) ∧
    (∀ x ∈ get_muscle_status df today,
      x.2.2 = (if x.2.1 ≤ 1 then MStatus.recovering
               else if x.2.1 ≤ 4 then MStatus.prime else MStatus.cold)) ∧
    (∀ x ∈ get_muscle_status df today,
      ∃ d, lastDate df x.1 = some d ∧ x.2.1 = today - d) ∧
    (∀ g ∈ muscleGroups df, ∃ x ∈ get_muscle_status df today, x.1 = g) := by
  have hni : ¬ (df.isEmpty = true) := by
    simp only [List.isEmpty_iff]
    exact hne
  rw [get_muscle_status, if_neg hni]
  refine ⟨List.sorted_insertionSort statusLe _, ?_, ?_, ?_⟩
  · intro x hx
    rw [List.mem_insertionSort, mem_statusRows] at hx
    obtain ⟨g, hg, d, hd, rfl⟩ := hx
    simp [get_color]
  · intro x hx
    rw [List.mem_insertionSort, mem_statusRows] at hx
    obtain ⟨g, hg, d, hd, rfl⟩ := hx
    exact ⟨d, hd, rfl⟩
  · intro g hg
    have hrow : ∃ r ∈ df, r.muscle_group = g := by
      have := hg
      rw [muscleGroups, List.mem_dedup, List.mem_map] at this
      obtain ⟨r, hr, hrg⟩ := this
      exact ⟨r, hr, hrg⟩
    obtain ⟨r, hr, hrg⟩ := hrow
    have hdate : r.date ∈ (df.filter (fun s => s.muscle_group = g)).map Row.date := by
      rw [List.mem_map]
      exact ⟨r, List.mem_filter.mpr ⟨hr, by simp [hrg]⟩, rfl⟩
    obtain ⟨m, hm⟩ := listMax_isSome_of_mem _ _ hdate
    refine ⟨(g, today - m, get_color (today - m)), ?_, rfl⟩
    rw [List.mem_insertionSort, mem_statusRows]
    exact ⟨g, hg, m, by rw [lastDate]; exact hm, rfl⟩

/-- Witness for C1 (amended) at the concrete two-day-old table. -/
theorem get_muscle_status_amended_witness :
    List.Sorted statusLe (get_muscle_status dfTwoDays 2) :=
  (get_muscle_status_amended dfTwoDays 2 (by simp [dfTwoDays])).1

/-! ### Period comparison verdict -/

/-- Claim C3: the verdict is the spec tier function of the percentage change
and distinct recent session count; a zero prior-window volume makes the
percentage change 100 without dividing, so positive recent volume over a
zero prior window never reaches the lowest tier; and the two windows are
the filters last-30-days and the-30-days-before. -/
theorem report_verdict_spec (df : List Row) (today : Int) :
    reportVerdict df today = verdictSpec (volPct df today) (recentWorkouts df today) ∧
    (oldVol df today = 0 → volPct df today = 100) ∧
    (oldVol df today = 0 → 0 < recentVol df today →
      reportVerdict df today ≠ Verdict.unsatisfactory) ∧
    (∀ r : Row,
      (r ∈ recentDf df today ↔ r ∈ df ∧ today - 30 ≤ r.date) ∧
      (r ∈ oldDf df today ↔ r ∈ df ∧ (today - 60 ≤ r.date ∧ r.date < today - 30))) := by
  refine ⟨rfl, ?_, ?_, ?_⟩
  · intro h
    simp [volPct, h]
  · intro h hr
    have h100 : volPct df today = 100 := by simp [volPct, h]
    rw [reportVerdict, h100]
    split_ifs with h1 h2
    · simp
    · simp
    · norm_num at h2
  · intro r
    constructor
    · simp [recentDf, List.mem_filter]
    · simp [oldDf, List.mem_filter]

/-- Witness for C3: a lone entry dated today has an empty prior window, so
the percentage change is 100 and the verdict is not the lowest tier. -/
theorem report_verdict_spec_witness :
    volPct dfTwoDays 0 = 100 ∧ reportVerdict dfTwoDays 0 ≠ Verdict.unsatisfactory :=
  ⟨(report_verdict_spec dfTwoDays 0).2.1 (by simp [oldVol, oldDf, dfTwoDays]),
   (report_verdict_spec dfTwoDays 0).2.2.1 (by simp [oldVol, oldDf, dfTwoDays])
     (by norm_num [recentVol, recentDf, dfTwoDays])⟩

end IronTracker

namespace IronTracker

/-! ### Deleting the most recent entry -/

theorem maxId_concat (l : List Row) (r : Row)
    (h : List.Pairwise (fun a b => a.id < b.id) (l ++ [r])) :
    maxId (l ++ [r]) = some r.id := by
  induction l with
  | nil => simp [maxId]
  | cons a l ih =>
    rw [List.cons_append]
    simp only [maxId]
    rw [ih (List.pairwise_cons.mp h).2]
    have hlt : a.id < r.id := (List.pairwise_cons.mp h).1 r (by simp)
    simp [max_eq_right (le_of_lt hlt)]

theorem filter_ne_last (l : List Row) (r : Row)
    (h : List.Pairwise (fun a b => a.id < b.id) (l ++ [r])) :
    (l ++ [r]).filter (fun x => x.id ≠ r.id) = l := by
  rw [List.filter_append]
  have hlr : ∀ a ∈ l, a.id < r.id := by
    rw [List.pairwise_append] at h
    intro a ha
    exact h.2.2 a ha r (by simp)
  have h1 : l.filter (fun x => decide (x.id ≠ r.id)) = l := by
    rw [List.filter_eq_self]
    intro a ha
    simpa using Nat.ne_of_lt (hlr a ha)
  have h2 : [r].filter (fun x => decide (x.id ≠ r.id)) = [] := by simp
  rw [h1, h2, List.append_nil]

/-- Claim C7: on a well-formed non-empty store the delete operation removes
exactly the last inserted (most recent) row, leaving the rest of the list,
every field included, unchanged; on an empty store it deletes nothing and
reports an error. -/
theorem deleteLast_spec :
    (∀ s : List Row, WFStore s → s ≠ [] → deleteLast s = Except.ok s.dropLast) ∧
    deleteLast [] = Except.error "Database is empty." := by
  constructor
  · intro s hwf hne
    rcases List.eq_nil_or_concat s with rfl | ⟨l, r, rfl⟩
    · exact absurd rfl hne
    · simp only [List.concat_eq_append] at hwf hne ⊢
      have hmax := maxId_concat l r hwf.1
      have hr1 : 1 ≤ r.id := hwf.2 r (by simp)
      unfold deleteLast
      rw [hmax]
      show (if r.id = 0 then Except.error "Database is empty."
            else Except.ok ((l ++ [r]).filter (fun x => x.id ≠ r.id)))
          = Except.ok (l ++ [r]).dropLast
      rw [if_neg (by omega), filter_ne_last l r hwf.1, List.dropLast_concat]
  · rfl

/-- Witness for C7: deleting from the two-row store drops exactly its last
row. -/
theorem deleteLast_spec_witness :
    deleteLast dfStore = Except.ok dfStore.dropLast :=
  deleteLast_spec.1 dfStore (by constructor <;> decide) (by simp [dfStore])

/-! ### Derived fields at write time -/

theorem submitEntry_eq (s : List Row) (d : Int) (ex : String) (w : Rat)
    (reps sets : Nat) (sleep : Rat) (notes : String) (muscle : String)
    (h : ex_map.lookup ex = some muscle) :
    submitEntry s d ex w reps sets sleep notes =
      some (s ++ [{ id := nextId s, date := d, exercise := ex,
                    muscle_group := muscle, weight := w, reps := reps,
                    sets := sets, sleep_hours := sleep, notes := notes,
                    estimated_1rm := calculate_1rm w reps,
                    volume := w * reps * sets }]) := by
  unfold submitEntry
  rw [h]

/-- Claim C8: the submitted row stores volume equal to weight times reps
times sets and the one-rep-max estimate of its own weight and reps, the
prior rows are passed through unchanged, and the concrete 60 by 5 by 3
entry stores volume 900. -/
theorem submitEntry_spec :
    (∀ (s : List Row) (d : Int) (ex : String) (w : Rat) (reps sets : Nat)
        (sleep : Rat) (notes : String) (muscle : String),
      ex_map.lookup ex = some muscle →
      submitEntry s d ex w reps sets sleep notes =
        some (s ++ [{ id := nextId s, date := d, exercise := ex,
                      muscle_group := muscle, weight := w, reps := reps,
                      sets := sets, sleep_hours := sleep, notes := notes,
                      estimated_1rm := calculate_1rm w reps,
                      volume := w * reps * sets }])) ∧
    (∀ (s : List Row) (d : Int) (ex : String) (w : Rat) (reps sets : Nat)
        (sleep : Rat) (notes : String) (t : List Row),
      submitEntry s d ex w reps sets sleep notes = some t →
      t.take s.length = s) ∧
    submitEntry [] 0 "Squat" 60 5 3 8 "" =
      some [{ id := 1, date := 0, exercise := "Squat", muscle_group := "Legs",
              weight := 60, reps := 5, sets := 3, sleep_hours := 8, notes := "",
              estimated_1rm := 70, volume := 900 }] := by
  refine ⟨?_, ?_, ?_⟩
  · intro s d ex w reps sets sleep notes muscle h
    exact submitEntry_eq s d ex w reps sets sleep notes muscle h
  · intro s d ex w reps sets sleep notes t h
    cases hl : ex_map.lookup ex with
    | none =>
      unfold submitEntry at h
      rw [hl] at h
      cases h
    | some m =>
      rw [submitEntry_eq s d ex w reps sets sleep notes m hl] at h
      injection h with h2
      subst h2
      rw [List.take_left]
  · have hl : ex_map.lookup "Squat" = some "Legs" := by rfl
    rw [submitEntry_eq [] 0 "Squat" 60 5 3 8 "" "Legs" hl]
    have h1 : calculate_1rm 60 5 = 70 := by norm_num [calculate_1rm]
    simp [nextId, maxId, h1]
    norm_num

/-- Witness for C8: appending a Deadlift entry to the two-row store. -/
theorem submitEntry_spec_witness :
    submitEntry dfStore 3 "Deadlift" 80 3 2 7 "pr day" =
      some (dfStore ++ [{ id := nextId dfStore, date := 3, exercise := "Deadlift",
                          muscle_group := "Back", weight := 80, reps := 3,
                          sets := 2, sleep_hours := 7, notes := "pr day",
                          estimated_1rm := calculate_1rm 80 3,
                          volume := 80 * (3 : Nat) * (2 : Nat) }]) :=
  submitEntry_spec.1 dfStore 3 "Deadlift" 80 3 2 7 "pr day" "Back" (by rfl)

end IronTracker

namespace IronTracker

/-! ### Digit strings -/

theorem digitChar_toNat : ∀ d : Nat, d < 10 → (digitChar d).toNat = 48 + d := by decide

theorem isDig_digitChar : ∀ d : Nat, d < 10 → isDig (digitChar d) = true := by decide

theorem digit_ne_minus (c : Char) (h : isDig c = true) : ¬ c = minus := by
  intro hc
  subst hc
  revert h
  decide

theorem natChars_ne_nil (n : Nat) : natChars n ≠ [] := by
  rw [natChars]
  split
  · simp
  · simp

theorem natChars_all_isDig : ∀ n : Nat, (natChars n).all isDig = true := by
  intro n
  induction n using Nat.strong_induction_on with
  | _ n ih =>
    rw [natChars]
    split
    · next h => simp [isDig_digitChar n h]
    · next h =>
      rw [List.all_append]
      rw [ih (n / 10) (Nat.div_lt_self (by omega) (by omega))]
      simp [isDig_digitChar (n % 10) (Nat.mod_lt _ (by omega))]

theorem parseNatRaw_append_digit (a : List Char) (c : Char) :
    parseNatRaw (a ++ [c]) = parseNatRaw a * 10 + (c.toNat - 48) := by
  rw [parseNatRaw, List.foldl_append]
  rfl

theorem parseNatRaw_natChars : ∀ n : Nat, parseNatRaw (natChars n) = n := by
  intro n
  induction n using Nat.strong_induction_on with
  | _ n ih =>
    rw [natChars]
    split
    · next h =>
      show parseNatRaw [digitChar n] = n
      rw [parseNatRaw]
      simp [digitChar_toNat n h]
    · next h =>
      rw [parseNatRaw_append_digit]
      rw [ih (n / 10) (Nat.div_lt_self (by omega) (by omega))]
      rw [digitChar_toNat (n % 10) (Nat.mod_lt _ (by omega))]
      omega

theorem natChars_length_le : ∀ (k n : Nat), n < 10 ^ k → 1 ≤ k →
    (natChars n).length ≤ k := by
  intro k
  induction k with
  | zero => omega
  | succ k ih =>
    intro n hn hk
    rw [natChars]
    split
    · simp
    · next h =>
      rw [List.length_append]
      have hk1 : 1 ≤ k := by
        by_contra hc
        have : k = 0 := by omega
        subst this
        simp at hn
        omega
      have hdiv : n / 10 < 10 ^ k := by
        rw [Nat.div_lt_iff_lt_mul (by omega)]
        calc n < 10 ^ (k + 1) := hn
          _ = 10 ^ k * 10 := by ring
      have := ih (n / 10) hdiv hk1
      simp only [List.length_cons, List.length_nil]
      omega

theorem parseNatRaw_replicate_zero (z : Nat) (s : List Char) :
    parseNatRaw (List.replicate z zeroChar ++ s) = parseNatRaw s := by
  induction z with
  | zero => simp
  | succ z ih =>
    rw [List.replicate_succ, List.cons_append]
    show parseNatRaw (zeroChar :: (List.replicate z zeroChar ++ s)) = parseNatRaw s
    rw [parseNatRaw, List.foldl_cons]
    have hz : zeroChar.toNat - 48 = 0 := by decide
    rw [hz]
    exact ih

theorem parseNat_natChars (n : Nat) : parseNat (natChars n) = some n := by
  rw [parseNat, if_pos ⟨natChars_ne_nil n, natChars_all_isDig n⟩, parseNatRaw_natChars]

theorem parseInt_intChars (z : Int) : parseInt (intChars z) = some z := by
  rw [intChars]
  split
  · next h =>
    rw [parseInt]
    show (if minus = minus then (parseNat (natChars z.natAbs)).map (fun v => -(Int.ofNat v))
          else (parseNat (minus :: natChars z.natAbs)).map (fun v => Int.ofNat v)) = some z
    rw [if_pos rfl, parseNat_natChars, Option.map_some']
    congr 1
    show -((z.natAbs : Nat) : Int) = z
    omega
  · next h =>
    have hz : 0 ≤ z := by omega
    obtain ⟨c, cs, hcons⟩ : ∃ c cs, natChars z.toNat = c :: cs := by
      cases hnc : natChars z.toNat with
      | nil => exact absurd hnc (natChars_ne_nil _)
      | cons c cs => exact ⟨c, cs, rfl⟩
    rw [hcons, parseInt]
    have hdig : isDig c = true := by
      have := natChars_all_isDig z.toNat
      rw [hcons, List.all_cons] at this
      exact (Bool.and_eq_true_iff.mp this).1
    rw [if_neg (digit_ne_minus c hdig), ← hcons, parseNat_natChars, Option.map_some']
    congr 1
    show ((z.toNat : Nat) : Int) = z
    omega

end IronTracker

namespace IronTracker

/-! ### Number parsing -/

theorem spanDigits_append (l : List Char) (hl : l.all isDig = true) (c : Char)
    (hc : isDig c = false) (rest : List Char) :
    spanDigits (l ++ c :: rest) = (l, c :: rest) := by
  induction l with
  | nil =>
    rw [List.nil_append, spanDigits]
    simp [hc]
  | cons a l ih =>
    rw [List.all_cons] at hl
    obtain ⟨ha, hl2⟩ := Bool.and_eq_true_iff.mp hl
    rw [List.cons_append, spanDigits]
    simp only [ha, if_true, ih hl2]

theorem spanDigits_all (l : List Char) (hl : l.all isDig = true) :
    spanDigits l = (l, []) := by
  induction l with
  | nil => rfl
  | cons a l ih =>
    rw [List.all_cons] at hl
    obtain ⟨ha, hl2⟩ := Bool.and_eq_true_iff.mp hl
    rw [spanDigits]
    simp only [ha, if_true, ih hl2]

theorem parseRatPos_natChars (n : Nat) : parseRatPos (natChars n) = some ((n : Nat) : Rat) := by
  have h1 := spanDigits_all (natChars n) (natChars_all_isDig n)
  simp [parseRatPos, h1, natChars_ne_nil n, parseNatRaw_natChars]

theorem padDigits_all_isDig (k v : Nat) : (padDigits k v).all isDig = true := by
  rw [padDigits, List.all_append]
  rw [natChars_all_isDig v]
  have hz : isDig zeroChar = true := by decide
  simp [List.all_eq_true, List.mem_replicate, hz]

theorem padDigits_ne_nil (k v : Nat) : padDigits k v ≠ [] := by
  rw [padDigits]
  intro h
  rcases List.append_eq_nil.mp h with ⟨_, h2⟩
  exact natChars_ne_nil v h2

theorem padDigits_length (k v : Nat) (h : (natChars v).length ≤ k) :
    (padDigits k v).length = k := by
  rw [padDigits, List.length_append, List.length_replicate]
  omega

theorem parseNatRaw_padDigits (k v : Nat) : parseNatRaw (padDigits k v) = v := by
  rw [padDigits, parseNatRaw_replicate_zero, parseNatRaw_natChars]

theorem parseRatPos_decimalChars (m k : Nat) (hk : 1 ≤ k) :
    parseRatPos (decimalChars m k) = some ((m : Rat) / 10 ^ k) := by
  have h1 := spanDigits_append (natChars (m / 10 ^ k)) (natChars_all_isDig _) dot (by decide)
    (padDigits k (m % 10 ^ k))
  have h2 := spanDigits_all (padDigits k (m % 10 ^ k)) (padDigits_all_isDig _ _)
  have hlen : (padDigits k (m % 10 ^ k)).length = k :=
    padDigits_length k _ (natChars_length_le k _ (Nat.mod_lt _ (by positivity)) hk)
  simp [parseRatPos, decimalChars, h1, h2, hlen, parseNatRaw_natChars,
    parseNatRaw_padDigits, natChars_ne_nil, padDigits_ne_nil]
  have hm : (10 : Rat) ^ k * ((m / 10 ^ k : Nat) : Rat) + ((m % 10 ^ k : Nat) : Rat)
      = (m : Rat) := by
    exact_mod_cast congrArg (Nat.cast : Nat → Rat) (Nat.div_add_mod m (10 ^ k))
  have hpow : ((10 : Rat) ^ k) ≠ 0 := by positivity
  field_simp
  linarith

theorem parseRatPos_fraction (a b : Nat) :
    parseRatPos (natChars a ++ slash :: natChars b)
      = some (((a : Nat) : Rat) / ((b : Nat) : Rat)) := by
  have h1 := spanDigits_append (natChars a) (natChars_all_isDig a) slash (by decide)
    (natChars b)
  have h2 := spanDigits_all (natChars b) (natChars_all_isDig b)
  have hsd : ¬ slash = dot := by decide
  simp [parseRatPos, h1, h2, hsd, natChars_ne_nil, parseNatRaw_natChars]

theorem parseRat_of_digit_head (cs : List Char) (c : Char) (h : cs = c :: cs.tail)
    (hdig : isDig c = true) : parseRat cs = parseRatPos cs := by
  conv_lhs => rw [h]
  rw [parseRat]
  rw [if_neg (digit_ne_minus c hdig)]
  rw [← h]

theorem num_cast_nonneg (z : Int) (hz : 0 ≤ z) : ((z.toNat : Nat) : Rat) = ((z : Int) : Rat) := by
  exact_mod_cast congrArg (Int.cast : Int → Rat) (Int.toNat_of_nonneg hz)

theorem num_cast_neg (z : Int) (hz : z < 0) : ((z.natAbs : Nat) : Rat) = -((z : Int) : Rat) := by
  rw [Int.cast_natAbs]
  rw [abs_of_nonpos]
  · push_cast
    ring
  · exact_mod_cast le_of_lt hz

end IronTracker

namespace IronTracker

theorem parseRat_eq_pos (c : Char) (cs : List Char) (hdig : isDig c = true) :
    parseRat (c :: cs) = parseRatPos (c :: cs) := by
  rw [parseRat, if_neg (digit_ne_minus c hdig)]

theorem natChars_cons (n : Nat) :
    ∃ c cs, natChars n = c :: cs ∧ isDig c = true := by
  cases h : natChars n with
  | nil => exact absurd h (natChars_ne_nil n)
  | cons c cs =>
    refine ⟨c, cs, rfl, ?_⟩
    have hall := natChars_all_isDig n
    rw [h, List.all_cons] at hall
    exact (Bool.and_eq_true_iff.mp hall).1

theorem num_div_den_cast (q : Rat) :
    ((q.num : Int) : Rat) / ((q.den : Nat) : Rat) = q := Rat.num_div_den q

theorem natAbs_cast_of_nonneg (z : Int) (hz : ¬ z < 0) :
    ((z.natAbs : Nat) : Rat) = ((z : Int) : Rat) := by
  rw [Int.cast_natAbs, abs_of_nonneg]
  exact_mod_cast not_lt.mp hz

theorem parseRat_ratChars (q : Rat) : parseRat (ratChars q) = some q := by
  have hdpos : 0 < q.den := q.pos
  have hdcast : ((q.den : Nat) : Rat) ≠ 0 :=
    Nat.cast_ne_zero.mpr (Nat.pos_iff_ne_zero.mp hdpos)
  by_cases hd1 : q.den = 1
  · have hq : ((q.num : Int) : Rat) = q := by
      have h := num_div_den_cast q
      rw [hd1] at h
      simpa using h
    rw [ratChars, if_pos hd1, intChars]
    by_cases hneg : q.num < 0
    · rw [if_pos hneg]
      rw [parseRat, if_pos rfl, parseRatPos_natChars, Option.map_some']
      rw [num_cast_neg q.num hneg, hq]
      simp
    · rw [if_neg hneg]
      obtain ⟨c, cs, hcons, hdig⟩ := natChars_cons q.num.toNat
      rw [hcons, parseRat_eq_pos c cs hdig, ← hcons, parseRatPos_natChars]
      rw [num_cast_nonneg q.num (not_lt.mp hneg), hq]
  · rw [ratChars, if_neg hd1]
    cases hfind : (List.range (q.den + 1)).find? (fun k => decide (10 ^ k % q.den = 0)) with
    | some k =>
      have hprop : 10 ^ k % q.den = 0 := by
        have h := List.find?_some hfind
        simpa using h
      have hdvd : q.den ∣ 10 ^ k := Nat.dvd_of_mod_eq_zero hprop
      have hk0 : 1 ≤ k := by
        by_contra hc
        have hk : k = 0 := by omega
        subst hk
        rw [pow_zero] at hprop
        exact hd1 (Nat.dvd_one.mp (Nat.dvd_of_mod_eq_zero hprop))
      have hmval : ((q.num.natAbs * (10 ^ k / q.den) : Nat) : Rat) / 10 ^ k
          = ((q.num.natAbs : Nat) : Rat) / ((q.den : Nat) : Rat) := by
        rw [div_eq_div_iff (by positivity) hdcast]
        have hnat : q.num.natAbs * (10 ^ k / q.den) * q.den = q.num.natAbs * 10 ^ k := by
          rw [Nat.mul_assoc, Nat.div_mul_cancel hdvd]
        exact_mod_cast hnat
      show parseRat ((if q.num < 0 then [minus] else []) ++
        decimalChars (q.num.natAbs * (10 ^ k / q.den)) k) = some q
      by_cases hneg : q.num < 0
      · rw [if_pos hneg, List.singleton_append]
        rw [parseRat, if_pos rfl]
        rw [parseRatPos_decimalChars _ k hk0, Option.map_some']
        rw [hmval, num_cast_neg q.num hneg]
        rw [neg_div, neg_neg, num_div_den_cast]
      · rw [if_neg hneg, List.nil_append]
        obtain ⟨c, cs, hcons, hdig⟩ := natChars_cons (q.num.natAbs * (10 ^ k / q.den) / 10 ^ k)
        have hhead : decimalChars (q.num.natAbs * (10 ^ k / q.den)) k
            = c :: (cs ++ dot :: padDigits k (q.num.natAbs * (10 ^ k / q.den) % 10 ^ k)) := by
          rw [decimalChars, hcons, List.cons_append]
        rw [hhead, parseRat_eq_pos c _ hdig, ← List.cons_append, ← hcons, ← decimalChars]
        rw [parseRatPos_decimalChars _ k hk0, hmval]
        rw [natAbs_cast_of_nonneg q.num hneg, num_div_den_cast]
    | none =>
      show parseRat (intChars q.num ++ slash :: natChars q.den) = some q
      rw [intChars]
      by_cases hneg : q.num < 0
      · rw [if_pos hneg, List.cons_append]
        rw [parseRat, if_pos rfl]
        rw [parseRatPos_fraction, Option.map_some']
        rw [num_cast_neg q.num hneg, neg_div, neg_neg, num_div_den_cast]
      · rw [if_neg hneg]
        obtain ⟨c, cs, hcons, hdig⟩ := natChars_cons q.num.toNat
        rw [hcons, List.cons_append, parseRat_eq_pos c _ hdig, ← List.cons_append, ← hcons]
        rw [parseRatPos_fraction]
        rw [num_cast_nonneg q.num (not_lt.mp hneg), num_div_den_cast]

end IronTracker

namespace IronTracker

/-! ### Field and record parsing -/

theorem parseUnquoted_comma (s : List Char)
    (hs : ∀ c ∈ s, ¬ c = comma ∧ ¬ c = qc ∧ ¬ c = nl) (rest : List Char) :
    parseUnquoted (s ++ comma :: rest) = (s, rest, false) := by
  induction s with
  | nil =>
    rw [List.nil_append, parseUnquoted, if_pos rfl]
  | cons c s ih =>
    have hc := hs c (by simp)
    have hs2 : ∀ x ∈ s, ¬ x = comma ∧ ¬ x = qc ∧ ¬ x = nl :=
      fun x hx => hs x (by simp [hx])
    rw [List.cons_append, parseUnquoted, if_neg hc.1, if_neg hc.2.2]
    simp only [ih hs2]

theorem parseUnquoted_nl (s : List Char)
    (hs : ∀ c ∈ s, ¬ c = comma ∧ ¬ c = qc ∧ ¬ c = nl) (rest : List Char) :
    parseUnquoted (s ++ nl :: rest) = (s, rest, true) := by
  induction s with
  | nil =>
    rw [List.nil_append, parseUnquoted, if_neg (by decide : ¬ nl = comma), if_pos rfl]
  | cons c s ih =>
    have hc := hs c (by simp)
    have hs2 : ∀ x ∈ s, ¬ x = comma ∧ ¬ x = qc ∧ ¬ x = nl :=
      fun x hx => hs x (by simp [hx])
    rw [List.cons_append, parseUnquoted, if_neg hc.1, if_neg hc.2.2]
    simp only [ih hs2]

theorem parseQuoted_comma (s rest : List Char) :
    parseQuoted (escQuotes s ++ qc :: comma :: rest) = (s, rest, false) := by
  induction s with
  | nil =>
    rw [escQuotes, List.nil_append, parseQuoted, if_pos rfl, parseAfterQuote]
    rw [if_neg (by decide : ¬ comma = qc), if_pos rfl]
  | cons c s ih =>
    by_cases hc : c = qc
    · subst hc
      rw [escQuotes, if_pos rfl, List.cons_append, List.cons_append]
      rw [parseQuoted, if_pos rfl, parseAfterQuote, if_pos rfl]
      simp only [ih]
    · rw [escQuotes, if_neg hc, List.cons_append]
      rw [parseQuoted, if_neg hc]
      simp only [ih]

theorem parseQuoted_nl (s rest : List Char) :
    parseQuoted (escQuotes s ++ qc :: nl :: rest) = (s, rest, true) := by
  induction s with
  | nil =>
    rw [escQuotes, List.nil_append, parseQuoted, if_pos rfl, parseAfterQuote]
    rw [if_neg (by decide : ¬ nl = qc), if_neg (by decide : ¬ nl = comma), if_pos rfl]
  | cons c s ih =>
    by_cases hc : c = qc
    · subst hc
      rw [escQuotes, if_pos rfl, List.cons_append, List.cons_append]
      rw [parseQuoted, if_pos rfl, parseAfterQuote, if_pos rfl]
      simp only [ih]
    · rw [escQuotes, if_neg hc, List.cons_append]
      rw [parseQuoted, if_neg hc]
      simp only [ih]

theorem needsQuote_false_chars (s : List Char) (hq : ¬ needsQuote s = true) :
    ∀ c ∈ s, ¬ c = comma ∧ ¬ c = qc ∧ ¬ c = nl := by
  intro c hc
  simp only [needsQuote, List.any_eq_true, not_exists, not_and] at hq
  have := hq c hc
  simp only [Bool.or_eq_true, decide_eq_true_eq] at this
  tauto

theorem parseField_comma (s rest : List Char) :
    parseField (encodeField s ++ comma :: rest) = (s, rest, false) := by
  rw [encodeField]
  by_cases hq : needsQuote s = true
  · rw [if_pos hq]
    have hform : (qc :: (escQuotes s ++ [qc])) ++ comma :: rest
        = qc :: (escQuotes s ++ qc :: comma :: rest) := by simp
    rw [hform, parseField, if_pos rfl]
    exact parseQuoted_comma s rest
  · rw [if_neg hq]
    have hs := needsQuote_false_chars s hq
    cases s with
    | nil =>
      rw [List.nil_append, parseField, if_neg (by decide : ¬ comma = qc)]
      exact parseUnquoted_comma [] (by simp) rest
    | cons c s2 =>
      have hcq : ¬ c = qc := (hs c (by simp)).2.1
      rw [List.cons_append, parseField, if_neg hcq, ← List.cons_append]
      exact parseUnquoted_comma (c :: s2) hs rest

theorem parseField_nl (s rest : List Char) :
    parseField (encodeField s ++ nl :: rest) = (s, rest, true) := by
  rw [encodeField]
  by_cases hq : needsQuote s = true
  · rw [if_pos hq]
    have hform : (qc :: (escQuotes s ++ [qc])) ++ nl :: rest
        = qc :: (escQuotes s ++ qc :: nl :: rest) := by simp
    rw [hform, parseField, if_pos rfl]
    exact parseQuoted_nl s rest
  · rw [if_neg hq]
    have hs := needsQuote_false_chars s hq
    cases s with
    | nil =>
      rw [List.nil_append, parseField, if_neg (by decide : ¬ nl = qc)]
      exact parseUnquoted_nl [] (by simp) rest
    | cons c s2 =>
      have hcq : ¬ c = qc := (hs c (by simp)).2.1
      rw [List.cons_append, parseField, if_neg hcq, ← List.cons_append]
      exact parseUnquoted_nl (c :: s2) hs rest

end IronTracker

namespace IronTracker

theorem parseRecordAux_encode (fs : List (List Char)) (hne : fs ≠ []) :
    ∀ (fuel : Nat), fs.length ≤ fuel → ∀ rest : List Char,
      parseRecordAux fuel (encodeRecord fs ++ nl :: rest) = (fs, rest) := by
  induction fs with
  | nil => exact absurd rfl hne
  | cons f fs ih =>
    intro fuel hf rest
    obtain ⟨f2, rfl⟩ : ∃ f2, fuel = f2 + 1 := ⟨fuel - 1, by simp at hf; omega⟩
    cases fs with
    | nil =>
      show parseRecordAux (f2 + 1) (encodeField f ++ nl :: rest) = ([f], rest)
      rw [parseRecordAux]
      simp only [parseField_nl f rest]
      simp
    | cons g gs =>
      have hform : encodeRecord (f :: g :: gs) ++ nl :: rest
          = encodeField f ++ comma :: (encodeRecord (g :: gs) ++ nl :: rest) := by
        rw [show encodeRecord (f :: g :: gs)
            = encodeField f ++ comma :: encodeRecord (g :: gs) from rfl]
        simp
      rw [hform, parseRecordAux]
      simp only [parseField_comma f (encodeRecord (g :: gs) ++ nl :: rest)]
      simp only [Bool.false_eq_true, if_false]
      rw [ih (List.cons_ne_nil g gs) f2 (by simp at hf ⊢; omega) rest]

theorem parseDoc_nil (fuel : Nat) : parseDoc fuel [] = [] := by
  cases fuel with
  | zero => rfl
  | succ f => rw [parseDoc]; simp

theorem encodeRecord_length_ge (fs : List (List Char)) (h : fs ≠ []) :
    fs.length ≤ (encodeRecord fs).length + 1 := by
  induction fs with
  | nil => simp
  | cons f fs ih =>
    cases fs with
    | nil => simp
    | cons g gs =>
      have := ih (List.cons_ne_nil g gs)
      rw [show encodeRecord (f :: g :: gs)
          = encodeField f ++ comma :: encodeRecord (g :: gs) from rfl]
      simp only [List.length_append, List.length_cons] at this ⊢
      omega

theorem encodeDoc_length_ge (rs : List (List (List Char))) :
    rs.length ≤ (encodeDoc rs).length := by
  induction rs with
  | nil => simp [encodeDoc]
  | cons r rs ih =>
    rw [encodeDoc]
    simp only [List.length_append, List.length_cons, List.length_nil]
    omega

theorem parseDoc_encodeDoc (rs : List (List (List Char))) (hr : ∀ r ∈ rs, r ≠ []) :
    ∀ fuel : Nat, rs.length ≤ fuel → parseDoc fuel (encodeDoc rs) = rs := by
  induction rs with
  | nil =>
    intro fuel hf
    rw [encodeDoc, parseDoc_nil]
  | cons r rs ih =>
    intro fuel hf
    obtain ⟨f2, rfl⟩ : ∃ f2, fuel = f2 + 1 := ⟨fuel - 1, by simp at hf; omega⟩
    have hform : encodeDoc (r :: rs) = encodeRecord r ++ nl :: encodeDoc rs := by
      rw [encodeDoc]
      simp
    rw [hform, parseDoc]
    have hne2 : (encodeRecord r ++ nl :: encodeDoc rs).isEmpty = false := by
      cases h : encodeRecord r <;> simp [h]
    rw [hne2]
    simp only [Bool.false_eq_true, if_false]
    have hfuel : r.length ≤ (encodeRecord r ++ nl :: encodeDoc rs).length + 1 := by
      have h1 := encodeRecord_length_ge r (hr r (by simp))
      simp only [List.length_append, List.length_cons]
      omega
    rw [parseRecordAux_encode r (hr r (by simp)) _ hfuel (encodeDoc rs)]
    rw [ih (fun x hx => hr x (by simp [hx])) f2 (by simp at hf; omega)]

theorem decodeRow_encodeRow (r : Row) : decodeRow (encodeRow r) = some r := by
  rw [encodeRow, decodeRow]
  rw [parseNat_natChars, parseInt_intChars, parseRat_ratChars, parseNat_natChars,
    parseNat_natChars, parseRat_ratChars, parseRat_ratChars, parseRat_ratChars]
  rfl

theorem decodeRows_map (l : List Row) : decodeRows (l.map encodeRow) = some l := by
  induction l with
  | nil => rfl
  | cons r rs ih =>
    rw [List.map_cons, decodeRows, decodeRow_encodeRow, ih]
    rfl

/-- Claim C9: exporting the raw table to the comma-separated flat-file
format and re-reading that file reproduces exactly the same rows — dates,
exercises, muscle groups, weights, reps, sets, sleep hours and notes all
included. -/
theorem export_import_roundtrip (df : List Row) :
    importCsv (exportCsv df) = some df := by
  rw [importCsv, exportCsv]
  have hr : ∀ r ∈ headerRecord :: df.map encodeRow, r ≠ [] := by
    intro r hrm
    rcases List.mem_cons.mp hrm with rfl | hmem
    · simp [headerRecord]
    · obtain ⟨x, hx, rfl⟩ := List.mem_map.mp hmem
      simp [encodeRow]
  have hlen : (headerRecord :: df.map encodeRow).length
      ≤ (encodeDoc (headerRecord :: df.map encodeRow)).length + 1 := by
    have := encodeDoc_length_ge (headerRecord :: df.map encodeRow)
    omega
  rw [parseDoc_encodeDoc _ hr _ hlen]
  show (if headerRecord = headerRecord then decodeRows (List.map encodeRow df) else none)
      = some df
  rw [if_pos rfl]
  exact decodeRows_map df

end IronTracker
